import Mathlib

/-!
Shallow embedding of the `event_dispatcher` crate (src/lib.rs) and proofs of
the specification claims about it.

The crate's core is:

* `enum DispatcherCommand { StopListening, StopPropagation, StopListeningAndPropagation }`
* the `Listener<E, M>` trait with
  `fn on_event(&mut self, event: &E, event_mut: &mut M) -> Option<DispatcherCommand>`
* the dispatcher type generated by the `dispatcher!` macro, holding
  `listeners: Vec<Box<dyn Listener<E, M>>>`, with methods `add` (a `Vec::push`)
  and `dispatch` (an index-based loop using `Vec::swap_remove`).

A listener entry is modelled by an abstract type `T` together with an
invocation function `invoke : T → E → M → T × M × Option DispatcherCommand`:
`on_event` takes `&mut self` and `&mut M`, so invocation returns the updated
entry, the updated companion value, and the optional command.  The dispatcher
state is the `listeners` list itself.
-/

namespace EventDispatcher

universe u v w

/-- `DispatcherCommand` from src/lib.rs: commands listeners return to the
dispatcher to influence dispatching. -/
inductive DispatcherCommand : Type
  | StopListening
  | StopPropagation
  | StopListeningAndPropagation
deriving DecidableEq

open DispatcherCommand

variable {E : Type u} {M : Type v} {T : Type w}

/-- `Vec::swap_remove(i)`: the removed element is replaced by the last element
of the vector and the vector shrinks by one. -/
def swap_remove (l : List T) (i : Nat) : List T :=
  match l.getLast? with
  | none => l
  | some last => (l.set i last).dropLast

/-- The `while i < self.listeners.len()` loop in `dispatch` (src/lib.rs,
lines 205-223): invoke the entry at the current index, then
on `None` advance the index, on `StopListening` swap-remove the entry and keep
the index, on `StopPropagation` return, on `StopListeningAndPropagation`
swap-remove and return.  The entry is updated in place by `on_event`
(`&mut self`), modelled by `l.set i a`. -/
def dispatchLoop (invoke : T → E → M → T × M × Option DispatcherCommand)
    (event : E) (l : List T) (m : M) (i : Nat) : List T × M :=
  if h : i < l.length then
    match invoke l[i] event m with
    | (a, m2, none) => dispatchLoop invoke event (l.set i a) m2 (i + 1)
    | (a, m2, some StopListening) =>
        dispatchLoop invoke event (swap_remove (l.set i a) i) m2 i
    | (a, m2, some StopPropagation) => (l.set i a, m2)
    | (a, m2, some StopListeningAndPropagation) =>
        (swap_remove (l.set i a) i, m2)
  else (l, m)
termination_by l.length - i
decreasing_by
  · simp only [List.length_set]
    omega
  · have hlen : (swap_remove (l.set i a) i).length = (l.set i a).length - 1 := by
      unfold swap_remove
      split
      · rename_i heq
        rw [List.getLast?_eq_none_iff.mp heq]
        rfl
      · simp
    rw [hlen]
    simp only [List.length_set]
    omega

/-- `dispatch(&mut self, event, event_mut)`: run the loop from index 0. -/
def dispatch (invoke : T → E → M → T × M × Option DispatcherCommand)
    (l : List T) (event : E) (m : M) : List T × M :=
  dispatchLoop invoke event l m 0

/-- `add(&mut self, listener)`: `self.listeners.push(listener)`. -/
def add (l : List T) (x : T) : List T :=
  l ++ [x]

/-! ### Instrumented (traced) dispatch

To state claims about which listeners get invoked, and in which order, we tag
each entry with an identifier (`tagOf`) and instrument the invocation function
so that every invocation appends `(tag, returned command)` to a log carried in
the companion value.  This changes nothing about the loop itself:
`dispatchTraced_eq_dispatch` below shows the traced run projects to the plain
one. -/

/-- `true` exactly for the commands that make `dispatch` remove the entry:
`StopListening` and `StopListeningAndPropagation` (and, per the
`Weak<RefCell<L>>` impl, an expired weak entry returns `StopListening`). -/
def isRemovalCmd : Option DispatcherCommand → Bool
  | some StopListening => true
  | some StopListeningAndPropagation => true
  | _ => false

/-- Wrap an invocation function so each invocation logs the entry's tag and
the command it returned. -/
def traceInvoke (invoke : T → E → M → T × M × Option DispatcherCommand)
    (tagOf : T → Nat) :
    T → E → M × List (Nat × Option DispatcherCommand) →
      T × (M × List (Nat × Option DispatcherCommand)) × Option DispatcherCommand :=
  fun a e p =>
    match invoke a e p.1 with
    | (a2, m2, cmd) => (a2, (m2, p.2 ++ [(tagOf a, cmd)]), cmd)

/-- `dispatch` with invocation logging: returns the final listener list, the
final companion value, and the invocation log in order. -/
def dispatchTraced (invoke : T → E → M → T × M × Option DispatcherCommand)
    (tagOf : T → Nat) (l : List T) (event : E) (m : M) :
    List T × M × List (Nat × Option DispatcherCommand) :=
  dispatch (traceInvoke invoke tagOf) l event (m, [])

/-- Tags of the entries of a listener list, in order. -/
def ids (tagOf : T → Nat) (l : List T) : List Nat :=
  l.map tagOf

/-- Tags recorded in an invocation log, in invocation order. -/
def logIds (log : List (Nat × Option DispatcherCommand)) : List Nat :=
  log.map Prod.fst

/-- Tags of the logged invocations whose command makes `dispatch` remove the
entry. -/
def removedIds (log : List (Nat × Option DispatcherCommand)) : List Nat :=
  (log.filter (fun q => isRemovalCmd q.2)).map Prod.fst


/-- Fuel-indexed variant of the dispatch loop, structurally recursive on the
fuel: used to show the loop always finishes within `l.length - i` further
iterations (each iteration advances the index or shrinks the list). -/
def dispatchLoopFuel (invoke : T → E → M → T × M × Option DispatcherCommand)
    (event : E) : Nat → List T → M → Nat → Option (List T × M)
  | 0, _, _, _ => none
  | fuel + 1, l, m, i =>
    if h : i < l.length then
      match invoke l[i] event m with
      | (a, m2, none) => dispatchLoopFuel invoke event fuel (l.set i a) m2 (i + 1)
      | (a, m2, some StopListening) =>
          dispatchLoopFuel invoke event fuel (swap_remove (l.set i a) i) m2 i
      | (a, m2, some StopPropagation) => some (l.set i a, m2)
      | (a, m2, some StopListeningAndPropagation) =>
          some (swap_remove (l.set i a) i, m2)
    else some (l, m)

/-- The `impl<E, M, L: Listener<E, M>> Listener<E, M> for Weak<RefCell<L>>`
(src/lib.rs lines 129-138).  A weak entry is modelled as `Option σ`: `some s`
is a live referent together with its state (reachable through
`upgrade` + `borrow_mut`), `none` is a destroyed referent (`upgrade` fails).
A live referent's `on_event` is forwarded to `inner`; an expired entry
returns `Some(StopListening)` without invoking anything. -/
def weakOnEvent {σ : Type _} (inner : σ → E → M → σ × M × Option DispatcherCommand) :
    Option σ → E → M → Option σ × M × Option DispatcherCommand :=
  fun w e m =>
    match w with
    | some s =>
      match inner s e m with
      | (s2, m2, cmd) => (some s2, m2, cmd)
    | none => (none, m, some StopListening)

/-- The companion-increment scenario of the spec: every listener increments
the `Nat` companion by one and returns `None` (the `EventListener` of
src/tests.rs does `*event_mut += 1`). -/
def incrInvoke : Unit → Unit → Nat → Unit × Nat × Option DispatcherCommand :=
  fun _ _ n => ((), n + 1, none)

/-- A listener entry that is just a tag, leaves the companion alone and
returns `None`; used to instantiate the universally quantified theorems. -/
def natNone : Nat → Unit → Unit → Nat × Unit × Option DispatcherCommand :=
  fun a _ m => (a, m, none)

/-- A listener entry that is just a tag and always returns
`Some(StopListening)`; used to instantiate the universally quantified
theorems. -/
def natSL : Nat → Unit → Unit → Nat × Unit × Option DispatcherCommand :=
  fun a _ m => (a, m, some StopListening)

/-- Uses-counter heap for the two weakly-held listeners of the
`stop_listening_and_propagation` test (src/tests.rs lines 114-147): both
referents (`listener_a`, `listener_b`) stay alive throughout, owned outside
the dispatcher, so their `uses` counters survive removal of the weak entries.
`bump2 p` increments the counter of referent `p`. -/
def bump2 : Nat → Nat × Nat → Nat × Nat
  | 0, (ua, ub) => (ua + 1, ub)
  | _ + 1, (ua, ub) => (ua, ub + 1)

/-- Invocation of the test's weak entries: entry `p` is the weak handle to
referent `p`; its referent is alive, so `on_event` forwards to the referent,
which does `self.uses += 1` and returns
`Some(DispatcherCommand::StopListeningAndPropagation)`. -/
def stopBothInvoke : Nat → Unit → Nat × Nat → Nat × (Nat × Nat) × Option DispatcherCommand :=
  fun p _ h => (p, bump2 p h, some StopListeningAndPropagation)

/-- Iterated dispatching: one traced dispatch call per `(event, companion)`
input, feeding the surviving listener list into the next call, collecting the
logs of all calls in order. -/
def iterDispatch (invoke : T → E → M → T × M × Option DispatcherCommand)
    (tagOf : T → Nat) :
    List (E × M) → List T → List T × List (Nat × Option DispatcherCommand)
  | [], l => (l, [])
  | (e, m) :: rest, l =>
    match dispatchTraced invoke tagOf l e m with
    | (l2, _, log) =>
      match iterDispatch invoke tagOf rest l2 with
      | (l3, logs) => (l3, log ++ logs)

/-! ### Basic properties of the loop -/

@[simp] theorem length_swap_remove (l : List T) (i : Nat) :
    (swap_remove l i).length = l.length - 1 := by
  unfold swap_remove
  split
  · rename_i heq
    rw [List.getLast?_eq_none_iff.mp heq]
    rfl
  · simp

theorem dispatchLoop_exit (invoke : T → E → M → T × M × Option DispatcherCommand)
    (event : E) (l : List T) (m : M) (i : Nat) (h : ¬ i < l.length) :
    dispatchLoop invoke event l m i = (l, m) := by
  unfold dispatchLoop
  simp [h]

theorem dispatchLoop_none (invoke : T → E → M → T × M × Option DispatcherCommand)
    (event : E) (l : List T) (m : M) (i : Nat) (h : i < l.length)
    (a : T) (m2 : M) (hinv : invoke l[i] event m = (a, m2, none)) :
    dispatchLoop invoke event l m i =
      dispatchLoop invoke event (l.set i a) m2 (i + 1) := by
  rw [dispatchLoop, dif_pos h, hinv]

theorem dispatchLoop_stopListening
    (invoke : T → E → M → T × M × Option DispatcherCommand)
    (event : E) (l : List T) (m : M) (i : Nat) (h : i < l.length)
    (a : T) (m2 : M) (hinv : invoke l[i] event m = (a, m2, some StopListening)) :
    dispatchLoop invoke event l m i =
      dispatchLoop invoke event (swap_remove (l.set i a) i) m2 i := by
  rw [dispatchLoop, dif_pos h, hinv]

theorem dispatchLoop_stopPropagation
    (invoke : T → E → M → T × M × Option DispatcherCommand)
    (event : E) (l : List T) (m : M) (i : Nat) (h : i < l.length)
    (a : T) (m2 : M) (hinv : invoke l[i] event m = (a, m2, some StopPropagation)) :
    dispatchLoop invoke event l m i = (l.set i a, m2) := by
  rw [dispatchLoop, dif_pos h, hinv]

theorem dispatchLoop_stopBoth
    (invoke : T → E → M → T × M × Option DispatcherCommand)
    (event : E) (l : List T) (m : M) (i : Nat) (h : i < l.length)
    (a : T) (m2 : M)
    (hinv : invoke l[i] event m = (a, m2, some StopListeningAndPropagation)) :
    dispatchLoop invoke event l m i = (swap_remove (l.set i a) i, m2) := by
  rw [dispatchLoop, dif_pos h, hinv]

/-! ### Structure of `swap_remove` -/

theorem set_self_eq (l : List T) (i : Nat) (h : i < l.length) :
    l.set i l[i] = l := by
  rw [List.set_eq_take_append_cons_drop, if_pos h, ← List.drop_eq_getElem_cons h,
    List.take_append_drop]

theorem swap_remove_eq_of_ne_nil (l : List T) (i : Nat) (hne : l ≠ []) :
    swap_remove l i = (l.set i (l.getLast hne)).dropLast := by
  unfold swap_remove
  rw [List.getLast?_eq_getLast l hne]

theorem swap_remove_take (l : List T) (i : Nat) (h : i < l.length) :
    (swap_remove l i).take i = l.take i := by
  have hne : l ≠ [] := List.ne_nil_of_length_pos (Nat.lt_of_le_of_lt (Nat.zero_le i) h)
  rw [swap_remove_eq_of_ne_nil l i hne, List.set_eq_take_append_cons_drop, if_pos h,
    List.dropLast_append_cons]
  rcases Nat.lt_or_ge (i + 1) l.length with hlt | hge
  · have hds : l.drop (i + 1) ≠ [] := by
      intro hc
      have := List.drop_eq_nil_iff.mp hc
      omega
    have hlen : (l.take i).length = i := by
      rw [List.length_take]
      omega
    rw [List.dropLast_cons_of_ne_nil hds, List.take_left' hlen]
  · have hds : l.drop (i + 1) = [] := List.drop_eq_nil_of_le hge
    rw [hds]
    simp only [List.dropLast_single, List.append_nil]
    rw [List.take_take]
    simp only [Nat.min_self]

theorem swap_remove_drop_perm (l : List T) (i : Nat) (h : i < l.length) :
    ((swap_remove l i).drop i).Perm (l.drop (i + 1)) := by
  have hne : l ≠ [] := List.ne_nil_of_length_pos (Nat.lt_of_le_of_lt (Nat.zero_le i) h)
  rw [swap_remove_eq_of_ne_nil l i hne, List.set_eq_take_append_cons_drop, if_pos h,
    List.dropLast_append_cons]
  rcases Nat.lt_or_ge (i + 1) l.length with hlt | hge
  · have hds : l.drop (i + 1) ≠ [] := by
      intro hc
      have := List.drop_eq_nil_iff.mp hc
      omega
    have hlen : (l.take i).length = i := by
      rw [List.length_take]
      omega
    rw [List.dropLast_cons_of_ne_nil hds, List.drop_left' hlen]
    have hlast : l.getLast hne = (l.drop (i + 1)).getLast hds := by
      rw [List.getLast_eq_getElem, List.getLast_eq_getElem]
      simp only [List.getElem_drop, List.length_drop]
      apply getElem_congr
      omega
    have p1 := (List.perm_append_singleton (l.getLast hne)
      ((l.drop (i + 1)).dropLast)).symm
    have p2 : (l.drop (i + 1)).dropLast ++ [l.getLast hne] = l.drop (i + 1) := by
      rw [hlast]
      exact List.dropLast_concat_getLast hds
    have p3 : ((l.drop (i + 1)).dropLast ++ [l.getLast hne]).Perm (l.drop (i + 1)) := by
      rw [p2]
    exact p1.trans p3
  · have hds : l.drop (i + 1) = [] := List.drop_eq_nil_of_le hge
    rw [hds]
    simp only [List.dropLast_single, List.append_nil]
    have hnil : (l.take i).drop i = [] := by
      apply List.drop_eq_nil_of_le
      simp only [List.length_take]
      omega
    rw [hnil]

theorem swap_remove_perm (l : List T) (i : Nat) (h : i < l.length) :
    (swap_remove l i ++ [l[i]]).Perm l := by
  have h1 : swap_remove l i = l.take i ++ (swap_remove l i).drop i := by
    conv_lhs => rw [← List.take_append_drop i (swap_remove l i)]
    rw [swap_remove_take l i h]
  have step1 : swap_remove l i ++ [l[i]] =
      l.take i ++ ((swap_remove l i).drop i ++ [l[i]]) := by
    rw [← List.append_assoc, ← h1]
  have p1 : ((swap_remove l i).drop i ++ [l[i]]).Perm (l[i] :: l.drop (i + 1)) :=
    (List.perm_append_singleton _ _).trans
      (List.Perm.cons _ (swap_remove_drop_perm l i h))
  have p2 : (l.take i ++ (l[i] :: l.drop (i + 1))).Perm l := by
    rw [← List.drop_eq_getElem_cons h, List.take_append_drop]
  exact step1 ▸ ((List.Perm.append_left _ p1).trans p2)

/-! ### Invariants of the traced loop -/

theorem traceInvoke_eq (invoke : T → E → M → T × M × Option DispatcherCommand)
    (tagOf : T → Nat) (event : E) (a : T) (m : M)
    (log : List (Nat × Option DispatcherCommand)) (b : T) (m2 : M)
    (cmd : Option DispatcherCommand) (hinv : invoke a event m = (b, m2, cmd)) :
    traceInvoke invoke tagOf a event (m, log) = (b, (m2, log ++ [(tagOf a, cmd)]), cmd) := by
  simp [traceInvoke, hinv]

theorem map_set_tag (tagOf : T → Nat) (l : List T) (i : Nat) (h : i < l.length)
    (x : T) (hx : tagOf x = tagOf l[i]) :
    (l.set i x).map tagOf = l.map tagOf := by
  have h2 : i < (l.map tagOf).length := by
    simpa using h
  have h3 : tagOf l[i] = (l.map tagOf)[i] := (List.getElem_map tagOf).symm
  rw [List.map_set, hx, h3]
  exact set_self_eq (l.map tagOf) i h2

theorem map_swap_remove (f : T → Nat) (l : List T) (i : Nat) :
    (swap_remove l i).map f = swap_remove (l.map f) i := by
  unfold swap_remove
  cases hl : l.getLast? with
  | none =>
    rw [List.getLast?_eq_none_iff.mp hl]
    rfl
  | some a =>
    have hm : (l.map f).getLast? = some (f a) := by
      rw [List.getLast?_map, hl]
      rfl
    rw [hm]
    show (l.set i a).dropLast.map f = ((l.map f).set i (f a)).dropLast
    rw [List.map_dropLast, List.map_set]

theorem removedIds_append (log1 log2 : List (Nat × Option DispatcherCommand)) :
    removedIds (log1 ++ log2) = removedIds log1 ++ removedIds log2 := by
  unfold removedIds
  rw [List.filter_append, List.map_append]

theorem removedIds_single_removal (t : Nat) (cmd : Option DispatcherCommand)
    (hc : isRemovalCmd cmd = true) : removedIds [(t, cmd)] = [t] := by
  unfold removedIds
  simp [hc]

theorem removedIds_single_keep (t : Nat) (cmd : Option DispatcherCommand)
    (hc : isRemovalCmd cmd = false) : removedIds [(t, cmd)] = [] := by
  unfold removedIds
  simp [hc]

/-- Conservation of tags: every tag of the initial listener list survives to
the final list or is recorded in the log with a removal command, and no tags
appear from nowhere.  `htag` says invocation does not change an entry's tag. -/
theorem tracedLoop_perm
    (invoke : T → E → M → T × M × Option DispatcherCommand) (tagOf : T → Nat)
    (event : E)
    (htag : ∀ (a : T) (e : E) (m : M), tagOf ((invoke a e m).1) = tagOf a)
    (l : List T) (m : M) (log : List (Nat × Option DispatcherCommand)) (i : Nat) :
    (ids tagOf (dispatchLoop (traceInvoke invoke tagOf) event l (m, log) i).1 ++
        removedIds (dispatchLoop (traceInvoke invoke tagOf) event l (m, log) i).2.2).Perm
      (ids tagOf l ++ removedIds log) := by
  by_cases h : i < l.length
  · rcases hinv : invoke l[i] event m with ⟨a, m2, cmd⟩
    have hti := traceInvoke_eq invoke tagOf event l[i] m log a m2 cmd hinv
    have hta : tagOf a = tagOf l[i] := by
      have ht := htag l[i] event m
      rw [hinv] at ht
      exact ht
    have hids : ids tagOf (l.set i a) = ids tagOf l := map_set_tag tagOf l i h a hta
    have hsw : ids tagOf (swap_remove (l.set i a) i) = swap_remove (ids tagOf l) i := by
      show ((swap_remove (l.set i a) i).map tagOf) = swap_remove (ids tagOf l) i
      rw [map_swap_remove, ← hids]
      rfl
    have hswp : (swap_remove (ids tagOf l) i ++ [tagOf l[i]]).Perm (ids tagOf l) := by
      have hlen : i < (ids tagOf l).length := by
        show i < (l.map tagOf).length
        simpa using h
      have hp := swap_remove_perm (ids tagOf l) i hlen
      have hget : (ids tagOf l)[i] = tagOf l[i] := List.getElem_map tagOf
      rw [hget] at hp
      exact hp
    cases cmd with
    | none =>
      rw [dispatchLoop_none _ event l (m, log) i h a _ hti]
      have ih := tracedLoop_perm invoke tagOf event htag (l.set i a) m2
        (log ++ [(tagOf l[i], none)]) (i + 1)
      refine ih.trans ?_
      rw [hids, removedIds_append, removedIds_single_keep (tagOf l[i]) none rfl,
        List.append_nil]
    | some c =>
      cases c with
      | StopListening =>
        rw [dispatchLoop_stopListening _ event l (m, log) i h a _ hti]
        have ih := tracedLoop_perm invoke tagOf event htag (swap_remove (l.set i a) i) m2
          (log ++ [(tagOf l[i], some StopListening)]) i
        refine ih.trans ?_
        rw [hsw, removedIds_append,
          removedIds_single_removal (tagOf l[i]) (some StopListening) rfl]
        have p1 : (swap_remove (ids tagOf l) i ++ (removedIds log ++ [tagOf l[i]])).Perm
            ((swap_remove (ids tagOf l) i ++ [tagOf l[i]]) ++ removedIds log) := by
          rw [List.append_assoc]
          exact List.Perm.append_left _ (List.perm_append_comm)
        exact p1.trans (List.Perm.append_right _ hswp)
      | StopPropagation =>
        rw [dispatchLoop_stopPropagation _ event l (m, log) i h a _ hti]
        rw [hids, removedIds_append,
          removedIds_single_keep (tagOf l[i]) (some StopPropagation) rfl, List.append_nil]
      | StopListeningAndPropagation =>
        rw [dispatchLoop_stopBoth _ event l (m, log) i h a _ hti]
        rw [hsw, removedIds_append,
          removedIds_single_removal (tagOf l[i]) (some StopListeningAndPropagation) rfl]
        have p1 : (swap_remove (ids tagOf l) i ++ (removedIds log ++ [tagOf l[i]])).Perm
            ((swap_remove (ids tagOf l) i ++ [tagOf l[i]]) ++ removedIds log) := by
          rw [List.append_assoc]
          exact List.Perm.append_left _ (List.perm_append_comm)
        exact p1.trans (List.Perm.append_right _ hswp)
  · rw [dispatchLoop_exit _ event l (m, log) i h]
termination_by l.length - i
decreasing_by
  all_goals simp only [length_swap_remove, List.length_set]; omega

/-- Length conservation: the listener list shrinks by exactly the number of
logged invocations whose command is a removal command. -/
theorem tracedLoop_lengths
    (invoke : T → E → M → T × M × Option DispatcherCommand) (tagOf : T → Nat)
    (event : E)
    (l : List T) (m : M) (log : List (Nat × Option DispatcherCommand)) (i : Nat) :
    (dispatchLoop (traceInvoke invoke tagOf) event l (m, log) i).1.length +
        (removedIds (dispatchLoop (traceInvoke invoke tagOf) event l (m, log) i).2.2).length =
      l.length + (removedIds log).length := by
  by_cases h : i < l.length
  · rcases hinv : invoke l[i] event m with ⟨a, m2, cmd⟩
    have hti := traceInvoke_eq invoke tagOf event l[i] m log a m2 cmd hinv
    cases cmd with
    | none =>
      rw [dispatchLoop_none _ event l (m, log) i h a _ hti]
      have ih := tracedLoop_lengths invoke tagOf event (l.set i a) m2
        (log ++ [(tagOf l[i], none)]) (i + 1)
      rw [removedIds_append, removedIds_single_keep (tagOf l[i]) none rfl,
        List.append_nil, List.length_set] at ih
      exact ih
    | some c =>
      cases c with
      | StopListening =>
        rw [dispatchLoop_stopListening _ event l (m, log) i h a _ hti]
        have ih := tracedLoop_lengths invoke tagOf event (swap_remove (l.set i a) i) m2
          (log ++ [(tagOf l[i], some StopListening)]) i
        rw [removedIds_append,
          removedIds_single_removal (tagOf l[i]) (some StopListening) rfl,
          length_swap_remove, List.length_set, List.length_append] at ih
        simp only [List.length_singleton] at ih
        omega
      | StopPropagation =>
        rw [dispatchLoop_stopPropagation _ event l (m, log) i h a _ hti]
        rw [removedIds_append, removedIds_single_keep (tagOf l[i]) (some StopPropagation) rfl,
          List.append_nil, List.length_set]
      | StopListeningAndPropagation =>
        rw [dispatchLoop_stopBoth _ event l (m, log) i h a _ hti]
        rw [removedIds_append,
          removedIds_single_removal (tagOf l[i]) (some StopListeningAndPropagation) rfl,
          length_swap_remove, List.length_set, List.length_append]
        simp only [List.length_singleton]
        omega
  · rw [dispatchLoop_exit _ event l (m, log) i h]
termination_by l.length - i
decreasing_by
  all_goals simp only [length_swap_remove, List.length_set]; omega

/-- The number of invocations in one dispatch call is bounded by the number of
listeners at the start of the loop. -/
theorem tracedLoop_log_length
    (invoke : T → E → M → T × M × Option DispatcherCommand) (tagOf : T → Nat)
    (event : E)
    (l : List T) (m : M) (log : List (Nat × Option DispatcherCommand)) (i : Nat) :
    (dispatchLoop (traceInvoke invoke tagOf) event l (m, log) i).2.2.length ≤
      log.length + (l.length - i) := by
  by_cases h : i < l.length
  · rcases hinv : invoke l[i] event m with ⟨a, m2, cmd⟩
    have hti := traceInvoke_eq invoke tagOf event l[i] m log a m2 cmd hinv
    cases cmd with
    | none =>
      rw [dispatchLoop_none _ event l (m, log) i h a _ hti]
      have ih := tracedLoop_log_length invoke tagOf event (l.set i a) m2
        (log ++ [(tagOf l[i], none)]) (i + 1)
      rw [List.length_append, List.length_set] at ih
      simp only [List.length_singleton] at ih
      omega
    | some c =>
      cases c with
      | StopListening =>
        rw [dispatchLoop_stopListening _ event l (m, log) i h a _ hti]
        have ih := tracedLoop_log_length invoke tagOf event (swap_remove (l.set i a) i) m2
          (log ++ [(tagOf l[i], some StopListening)]) i
        rw [List.length_append, length_swap_remove, List.length_set] at ih
        simp only [List.length_singleton] at ih
        omega
      | StopPropagation =>
        rw [dispatchLoop_stopPropagation _ event l (m, log) i h a _ hti]
        simp only [List.length_append, List.length_singleton]
        omega
      | StopListeningAndPropagation =>
        rw [dispatchLoop_stopBoth _ event l (m, log) i h a _ hti]
        simp only [List.length_append, List.length_singleton]
        omega
  · rw [dispatchLoop_exit _ event l (m, log) i h]
    show log.length ≤ log.length + (l.length - i)
    omega
termination_by l.length - i
decreasing_by
  all_goals simp only [length_swap_remove, List.length_set]; omega

/-- Every log entry records the tag of the invoked entry together with the
command the invocation function actually returned for it: any predicate
relating tags to returned commands transports to the log. -/
theorem tracedLoop_pred
    (invoke : T → E → M → T × M × Option DispatcherCommand) (tagOf : T → Nat)
    (event : E) (P : Nat → Option DispatcherCommand → Prop)
    (hp : ∀ (a : T) (m2 : M), P (tagOf a) ((invoke a event m2).2.2))
    (l : List T) (m : M) (log : List (Nat × Option DispatcherCommand)) (i : Nat)
    (hlog : ∀ q ∈ log, P q.1 q.2) :
    ∀ q ∈ (dispatchLoop (traceInvoke invoke tagOf) event l (m, log) i).2.2, P q.1 q.2 := by
  by_cases h : i < l.length
  · rcases hinv : invoke l[i] event m with ⟨a, m2, cmd⟩
    have hti := traceInvoke_eq invoke tagOf event l[i] m log a m2 cmd hinv
    have hcur : P (tagOf l[i]) cmd := by
      have hc := hp l[i] m
      rw [hinv] at hc
      exact hc
    have hlog2 : ∀ q ∈ log ++ [(tagOf l[i], cmd)], P q.1 q.2 := by
      intro q hq
      rcases List.mem_append.mp hq with hq1 | hq2
      · exact hlog q hq1
      · rcases List.mem_singleton.mp hq2 with rfl
        exact hcur
    cases cmd with
    | none =>
      rw [dispatchLoop_none _ event l (m, log) i h a _ hti]
      exact tracedLoop_pred invoke tagOf event P hp (l.set i a) m2
        (log ++ [(tagOf l[i], none)]) (i + 1) hlog2
    | some c =>
      cases c with
      | StopListening =>
        rw [dispatchLoop_stopListening _ event l (m, log) i h a _ hti]
        exact tracedLoop_pred invoke tagOf event P hp (swap_remove (l.set i a) i) m2
          (log ++ [(tagOf l[i], some StopListening)]) i hlog2
      | StopPropagation =>
        rw [dispatchLoop_stopPropagation _ event l (m, log) i h a _ hti]
        exact hlog2
      | StopListeningAndPropagation =>
        rw [dispatchLoop_stopBoth _ event l (m, log) i h a _ hti]
        exact hlog2
  · rw [dispatchLoop_exit _ event l (m, log) i h]
    exact hlog
termination_by l.length - i
decreasing_by
  all_goals simp only [length_swap_remove, List.length_set]; omega

theorem logIds_append (log1 log2 : List (Nat × Option DispatcherCommand)) :
    logIds (log1 ++ log2) = logIds log1 ++ logIds log2 := by
  unfold logIds
  rw [List.map_append]

/-- Every invoked tag was a tag of some entry of the list the loop started
from. -/
theorem tracedLoop_subset
    (invoke : T → E → M → T × M × Option DispatcherCommand) (tagOf : T → Nat)
    (event : E)
    (htag : ∀ (a : T) (e : E) (m : M), tagOf ((invoke a e m).1) = tagOf a)
    (l : List T) (m : M) (log : List (Nat × Option DispatcherCommand)) (i : Nat) :
    ∀ x ∈ logIds (dispatchLoop (traceInvoke invoke tagOf) event l (m, log) i).2.2,
      x ∈ logIds log ∨ x ∈ ids tagOf l := by
  by_cases h : i < l.length
  · rcases hinv : invoke l[i] event m with ⟨a, m2, cmd⟩
    have hti := traceInvoke_eq invoke tagOf event l[i] m log a m2 cmd hinv
    have hta : tagOf a = tagOf l[i] := by
      have ht := htag l[i] event m
      rw [hinv] at ht
      exact ht
    have hids : ids tagOf (l.set i a) = ids tagOf l := map_set_tag tagOf l i h a hta
    have htmem : tagOf l[i] ∈ ids tagOf l := List.mem_map_of_mem tagOf (List.getElem_mem h)
    have hone : ∀ x ∈ logIds (log ++ [(tagOf l[i], cmd)]),
        x ∈ logIds log ∨ x ∈ ids tagOf l := by
      intro x hx
      rw [logIds_append] at hx
      rcases List.mem_append.mp hx with hx1 | hx2
      · exact Or.inl hx1
      · rcases List.mem_singleton.mp hx2 with rfl
        exact Or.inr htmem
    cases cmd with
    | none =>
      rw [dispatchLoop_none _ event l (m, log) i h a _ hti]
      intro x hx
      rcases tracedLoop_subset invoke tagOf event htag (l.set i a) m2
        (log ++ [(tagOf l[i], none)]) (i + 1) x hx with h1 | h2
      · exact hone x h1
      · rw [hids] at h2
        exact Or.inr h2
    | some c =>
      cases c with
      | StopListening =>
        rw [dispatchLoop_stopListening _ event l (m, log) i h a _ hti]
        intro x hx
        rcases tracedLoop_subset invoke tagOf event htag (swap_remove (l.set i a) i) m2
          (log ++ [(tagOf l[i], some StopListening)]) i x hx with h1 | h2
        · exact hone x h1
        · have hsw : ids tagOf (swap_remove (l.set i a) i) = swap_remove (ids tagOf l) i := by
            show ((swap_remove (l.set i a) i).map tagOf) = swap_remove (ids tagOf l) i
            rw [map_swap_remove, ← hids]
            rfl
          rw [hsw] at h2
          have hlen : i < (ids tagOf l).length := by
            show i < (l.map tagOf).length
            simpa using h
          have hp := swap_remove_perm (ids tagOf l) i hlen
          exact Or.inr (hp.mem_iff.mp (List.mem_append.mpr (Or.inl h2)))
      | StopPropagation =>
        rw [dispatchLoop_stopPropagation _ event l (m, log) i h a _ hti]
        exact hone
      | StopListeningAndPropagation =>
        rw [dispatchLoop_stopBoth _ event l (m, log) i h a _ hti]
        exact hone
  · rw [dispatchLoop_exit _ event l (m, log) i h]
    intro x hx
    exact Or.inl hx
termination_by l.length - i
decreasing_by
  all_goals simp only [length_swap_remove, List.length_set]; omega

/-- At-most-once: if the tags logged so far together with the tags of the
not-yet-visited entries are distinct, the final log has distinct tags, i.e.
no entry is invoked twice in one dispatch call. -/
theorem tracedLoop_nodup
    (invoke : T → E → M → T × M × Option DispatcherCommand) (tagOf : T → Nat)
    (event : E)
    (htag : ∀ (a : T) (e : E) (m : M), tagOf ((invoke a e m).1) = tagOf a)
    (l : List T) (m : M) (log : List (Nat × Option DispatcherCommand)) (i : Nat)
    (hnd : (logIds log ++ ids tagOf (l.drop i)).Nodup) :
    (logIds (dispatchLoop (traceInvoke invoke tagOf) event l (m, log) i).2.2).Nodup := by
  by_cases h : i < l.length
  · rcases hinv : invoke l[i] event m with ⟨a, m2, cmd⟩
    have hti := traceInvoke_eq invoke tagOf event l[i] m log a m2 cmd hinv
    have hta : tagOf a = tagOf l[i] := by
      have ht := htag l[i] event m
      rw [hinv] at ht
      exact ht
    have hids : ids tagOf (l.set i a) = ids tagOf l := map_set_tag tagOf l i h a hta
    have hdropi : ids tagOf (l.drop i) = tagOf l[i] :: ids tagOf (l.drop (i + 1)) := by
      show (l.drop i).map tagOf = tagOf l[i] :: (l.drop (i + 1)).map tagOf
      rw [List.drop_eq_getElem_cons h]
      rfl
    have hnd2 : (logIds (log ++ [(tagOf l[i], cmd)]) ++ ids tagOf (l.drop (i + 1))).Nodup := by
      rw [logIds_append, List.append_assoc]
      rw [hdropi] at hnd
      exact hnd
    cases cmd with
    | none =>
      rw [dispatchLoop_none _ event l (m, log) i h a _ hti]
      have hds : (l.set i a).drop (i + 1) = l.drop (i + 1) := by
        rw [List.drop_set]
        exact if_pos (Nat.lt_succ_self i)
      refine tracedLoop_nodup invoke tagOf event htag (l.set i a) m2
        (log ++ [(tagOf l[i], none)]) (i + 1) ?_
      show (logIds (log ++ [(tagOf l[i], none)]) ++ ids tagOf ((l.set i a).drop (i + 1))).Nodup
      rw [hds]
      exact hnd2
    | some c =>
      cases c with
      | StopListening =>
        rw [dispatchLoop_stopListening _ event l (m, log) i h a _ hti]
        have hsw : ids tagOf (swap_remove (l.set i a) i) = swap_remove (ids tagOf l) i := by
          show ((swap_remove (l.set i a) i).map tagOf) = swap_remove (ids tagOf l) i
          rw [map_swap_remove, ← hids]
          rfl
        have hlen : i < (ids tagOf l).length := by
          show i < (l.map tagOf).length
          simpa using h
        have hpd : (ids tagOf ((swap_remove (l.set i a) i).drop i)).Perm
            (ids tagOf (l.drop (i + 1))) := by
          show (((swap_remove (l.set i a) i).drop i).map tagOf).Perm ((l.drop (i + 1)).map tagOf)
          rw [List.map_drop]
          show (((swap_remove (l.set i a) i).map tagOf).drop i).Perm ((l.drop (i + 1)).map tagOf)
          have hsw2 : (swap_remove (l.set i a) i).map tagOf = swap_remove (ids tagOf l) i := hsw
          rw [hsw2, List.map_drop]
          exact swap_remove_drop_perm (ids tagOf l) i hlen
        refine tracedLoop_nodup invoke tagOf event htag (swap_remove (l.set i a) i) m2
          (log ++ [(tagOf l[i], some StopListening)]) i ?_
        have hperm := List.Perm.append_left
          (logIds (log ++ [(tagOf l[i], some StopListening)])) hpd.symm
        exact hperm.nodup hnd2
      | StopPropagation =>
        rw [dispatchLoop_stopPropagation _ event l (m, log) i h a _ hti]
        show (logIds (log ++ [(tagOf l[i], some StopPropagation)])).Nodup
        rw [logIds_append]
        rw [hdropi] at hnd
        refine List.Nodup.sublist ?_ hnd
        exact List.Sublist.append_left
          (List.Sublist.cons₂ _ (List.nil_sublist _)) (logIds log)
      | StopListeningAndPropagation =>
        rw [dispatchLoop_stopBoth _ event l (m, log) i h a _ hti]
        show (logIds (log ++ [(tagOf l[i], some StopListeningAndPropagation)])).Nodup
        rw [logIds_append]
        rw [hdropi] at hnd
        refine List.Nodup.sublist ?_ hnd
        exact List.Sublist.append_left
          (List.Sublist.cons₂ _ (List.nil_sublist _)) (logIds log)
  · rw [dispatchLoop_exit _ event l (m, log) i h]
    exact List.Nodup.sublist (List.sublist_append_left _ _) hnd
termination_by l.length - i
decreasing_by
  all_goals simp only [length_swap_remove, List.length_set]; omega

/-- If every invocation returns `None`, the loop visits the remaining entries
in order, logging each exactly once, and the listener sequence is unchanged
(as a sequence of tags). -/
theorem tracedLoop_all_none
    (invoke : T → E → M → T × M × Option DispatcherCommand) (tagOf : T → Nat)
    (event : E)
    (htag : ∀ (a : T) (e : E) (m : M), tagOf ((invoke a e m).1) = tagOf a)
    (hall : ∀ (a : T) (m2 : M), (invoke a event m2).2.2 = none)
    (l : List T) (m : M) (log : List (Nat × Option DispatcherCommand)) (i : Nat) :
    (dispatchLoop (traceInvoke invoke tagOf) event l (m, log) i).2.2 =
        log ++ (ids tagOf (l.drop i)).map
          (fun x => (x, (none : Option DispatcherCommand))) ∧
      ids tagOf (dispatchLoop (traceInvoke invoke tagOf) event l (m, log) i).1 =
        ids tagOf l := by
  by_cases h : i < l.length
  · rcases hinv : invoke l[i] event m with ⟨a, m2, cmd⟩
    have hti := traceInvoke_eq invoke tagOf event l[i] m log a m2 cmd hinv
    have hta : tagOf a = tagOf l[i] := by
      have ht := htag l[i] event m
      rw [hinv] at ht
      exact ht
    have hids : ids tagOf (l.set i a) = ids tagOf l := map_set_tag tagOf l i h a hta
    have hcmd : cmd = none := by
      have hc := hall l[i] m
      rw [hinv] at hc
      exact hc
    subst hcmd
    rw [dispatchLoop_none _ event l (m, log) i h a _ hti]
    have hds : (l.set i a).drop (i + 1) = l.drop (i + 1) := by
      rw [List.drop_set]
      exact if_pos (Nat.lt_succ_self i)
    obtain ⟨ih1, ih2⟩ := tracedLoop_all_none invoke tagOf event htag hall (l.set i a) m2
      (log ++ [(tagOf l[i], none)]) (i + 1)
    constructor
    · rw [ih1, hds, List.append_assoc]
      congr 1
      have hdropi : ids tagOf (l.drop i) = tagOf l[i] :: ids tagOf (l.drop (i + 1)) := by
        show (l.drop i).map tagOf = tagOf l[i] :: (l.drop (i + 1)).map tagOf
        rw [List.drop_eq_getElem_cons h]
        rfl
      rw [hdropi]
      rfl
    · rw [ih2, hids]
  · rw [dispatchLoop_exit _ event l (m, log) i h]
    have hds : l.drop i = [] := List.drop_eq_nil_of_le (Nat.le_of_not_lt h)
    constructor
    · rw [hds]
      show log = log ++ []
      rw [List.append_nil]
    · rfl
termination_by l.length - i
decreasing_by
  all_goals simp only [length_swap_remove, List.length_set]; omega

/-- If no invocation ever returns a removal command, the invoked tags are an
in-order prefix of the tags of the not-yet-visited entries, and the listener
sequence keeps exactly its tags: registration order is respected whenever no
swap-removal occurs. -/
theorem tracedLoop_no_removal
    (invoke : T → E → M → T × M × Option DispatcherCommand) (tagOf : T → Nat)
    (event : E)
    (htag : ∀ (a : T) (e : E) (m : M), tagOf ((invoke a e m).1) = tagOf a)
    (hnr : ∀ (a : T) (m2 : M), isRemovalCmd ((invoke a event m2).2.2) = false)
    (l : List T) (m : M) (log : List (Nat × Option DispatcherCommand)) (i : Nat) :
    (∃ k, logIds (dispatchLoop (traceInvoke invoke tagOf) event l (m, log) i).2.2 =
        logIds log ++ (ids tagOf (l.drop i)).take k) ∧
      ids tagOf (dispatchLoop (traceInvoke invoke tagOf) event l (m, log) i).1 =
        ids tagOf l := by
  by_cases h : i < l.length
  · rcases hinv : invoke l[i] event m with ⟨a, m2, cmd⟩
    have hti := traceInvoke_eq invoke tagOf event l[i] m log a m2 cmd hinv
    have hta : tagOf a = tagOf l[i] := by
      have ht := htag l[i] event m
      rw [hinv] at ht
      exact ht
    have hids : ids tagOf (l.set i a) = ids tagOf l := map_set_tag tagOf l i h a hta
    have hcmd : isRemovalCmd cmd = false := by
      have hc := hnr l[i] m
      rw [hinv] at hc
      exact hc
    have hdropi : ids tagOf (l.drop i) = tagOf l[i] :: ids tagOf (l.drop (i + 1)) := by
      show (l.drop i).map tagOf = tagOf l[i] :: (l.drop (i + 1)).map tagOf
      rw [List.drop_eq_getElem_cons h]
      rfl
    cases cmd with
    | none =>
      rw [dispatchLoop_none _ event l (m, log) i h a _ hti]
      have hds : (l.set i a).drop (i + 1) = l.drop (i + 1) := by
        rw [List.drop_set]
        exact if_pos (Nat.lt_succ_self i)
      obtain ⟨⟨k, ih1⟩, ih2⟩ := tracedLoop_no_removal invoke tagOf event htag hnr
        (l.set i a) m2 (log ++ [(tagOf l[i], none)]) (i + 1)
      constructor
      · refine ⟨k + 1, ?_⟩
        rw [ih1, hds, logIds_append, List.append_assoc, hdropi, List.take_succ_cons]
        rfl
      · rw [ih2, hids]
    | some c =>
      cases c with
      | StopListening => simp [isRemovalCmd] at hcmd
      | StopPropagation =>
        rw [dispatchLoop_stopPropagation _ event l (m, log) i h a _ hti]
        constructor
        · refine ⟨1, ?_⟩
          rw [logIds_append, hdropi, List.take_succ_cons, List.take_zero]
          rfl
        · exact hids
      | StopListeningAndPropagation => simp [isRemovalCmd] at hcmd
  · rw [dispatchLoop_exit _ event l (m, log) i h]
    constructor
    · refine ⟨0, ?_⟩
      rw [List.take_zero, List.append_nil]
    · rfl
termination_by l.length - i
decreasing_by
  all_goals simp only [length_swap_remove, List.length_set]; omega

/-- The instrumentation is faithful: erasing the log from a traced run gives
exactly the plain `dispatchLoop` run. -/
theorem tracedLoop_eq_plain
    (invoke : T → E → M → T × M × Option DispatcherCommand) (tagOf : T → Nat)
    (event : E)
    (l : List T) (m : M) (log : List (Nat × Option DispatcherCommand)) (i : Nat) :
    (dispatchLoop (traceInvoke invoke tagOf) event l (m, log) i).1 =
        (dispatchLoop invoke event l m i).1 ∧
      (dispatchLoop (traceInvoke invoke tagOf) event l (m, log) i).2.1 =
        (dispatchLoop invoke event l m i).2 := by
  by_cases h : i < l.length
  · rcases hinv : invoke l[i] event m with ⟨a, m2, cmd⟩
    have hti := traceInvoke_eq invoke tagOf event l[i] m log a m2 cmd hinv
    cases cmd with
    | none =>
      rw [dispatchLoop_none _ event l (m, log) i h a _ hti,
        dispatchLoop_none invoke event l m i h a m2 hinv]
      exact tracedLoop_eq_plain invoke tagOf event (l.set i a) m2
        (log ++ [(tagOf l[i], none)]) (i + 1)
    | some c =>
      cases c with
      | StopListening =>
        rw [dispatchLoop_stopListening _ event l (m, log) i h a _ hti,
          dispatchLoop_stopListening invoke event l m i h a m2 hinv]
        exact tracedLoop_eq_plain invoke tagOf event (swap_remove (l.set i a) i) m2
          (log ++ [(tagOf l[i], some StopListening)]) i
      | StopPropagation =>
        rw [dispatchLoop_stopPropagation _ event l (m, log) i h a _ hti,
          dispatchLoop_stopPropagation invoke event l m i h a m2 hinv]
        exact ⟨rfl, rfl⟩
      | StopListeningAndPropagation =>
        rw [dispatchLoop_stopBoth _ event l (m, log) i h a _ hti,
          dispatchLoop_stopBoth invoke event l m i h a m2 hinv]
        exact ⟨rfl, rfl⟩
  · rw [dispatchLoop_exit _ event l (m, log) i h, dispatchLoop_exit invoke event l m i h]
    exact ⟨rfl, rfl⟩
termination_by l.length - i
decreasing_by
  all_goals simp only [length_swap_remove, List.length_set]; omega

/-! ### Top-level corollaries for one dispatch call -/

theorem dispatchTraced_perm
    (invoke : T → E → M → T × M × Option DispatcherCommand) (tagOf : T → Nat)
    (event : E)
    (htag : ∀ (a : T) (e : E) (m : M), tagOf ((invoke a e m).1) = tagOf a)
    (l : List T) (m : M) :
    (ids tagOf (dispatchTraced invoke tagOf l event m).1 ++
        removedIds (dispatchTraced invoke tagOf l event m).2.2).Perm (ids tagOf l) := by
  have h := tracedLoop_perm invoke tagOf event htag l m [] 0
  have h2 : removedIds ([] : List (Nat × Option DispatcherCommand)) = [] := rfl
  rw [h2, List.append_nil] at h
  exact h

theorem dispatchTraced_nodup
    (invoke : T → E → M → T × M × Option DispatcherCommand) (tagOf : T → Nat)
    (event : E)
    (htag : ∀ (a : T) (e : E) (m : M), tagOf ((invoke a e m).1) = tagOf a)
    (l : List T) (m : M) (hnd : (ids tagOf l).Nodup) :
    (logIds (dispatchTraced invoke tagOf l event m).2.2).Nodup := by
  refine tracedLoop_nodup invoke tagOf event htag l m [] 0 ?_
  exact hnd

theorem dispatchTraced_subset
    (invoke : T → E → M → T × M × Option DispatcherCommand) (tagOf : T → Nat)
    (event : E)
    (htag : ∀ (a : T) (e : E) (m : M), tagOf ((invoke a e m).1) = tagOf a)
    (l : List T) (m : M) :
    ∀ x ∈ logIds (dispatchTraced invoke tagOf l event m).2.2, x ∈ ids tagOf l := by
  intro x hx
  rcases tracedLoop_subset invoke tagOf event htag l m [] 0 x hx with h1 | h2
  · exact absurd h1 (List.not_mem_nil x)
  · exact h2

theorem dispatchTraced_final_subset
    (invoke : T → E → M → T × M × Option DispatcherCommand) (tagOf : T → Nat)
    (event : E)
    (htag : ∀ (a : T) (e : E) (m : M), tagOf ((invoke a e m).1) = tagOf a)
    (l : List T) (m : M) :
    ∀ x ∈ ids tagOf (dispatchTraced invoke tagOf l event m).1, x ∈ ids tagOf l := by
  intro x hx
  exact (dispatchTraced_perm invoke tagOf event htag l m).mem_iff.mp
    (List.mem_append.mpr (Or.inl hx))

theorem dispatchTraced_lengths
    (invoke : T → E → M → T × M × Option DispatcherCommand) (tagOf : T → Nat)
    (event : E) (l : List T) (m : M) :
    (dispatchTraced invoke tagOf l event m).1.length +
        (removedIds (dispatchTraced invoke tagOf l event m).2.2).length = l.length := by
  have h := tracedLoop_lengths invoke tagOf event l m [] 0
  have h2 : removedIds ([] : List (Nat × Option DispatcherCommand)) = [] := rfl
  rw [h2] at h
  simpa using h

theorem dispatchTraced_log_length
    (invoke : T → E → M → T × M × Option DispatcherCommand) (tagOf : T → Nat)
    (event : E) (l : List T) (m : M) :
    (dispatchTraced invoke tagOf l event m).2.2.length ≤ l.length := by
  have h := tracedLoop_log_length invoke tagOf event l m [] 0
  simpa using h

theorem dispatchTraced_pred
    (invoke : T → E → M → T × M × Option DispatcherCommand) (tagOf : T → Nat)
    (event : E) (P : Nat → Option DispatcherCommand → Prop)
    (hp : ∀ (a : T) (m2 : M), P (tagOf a) ((invoke a event m2).2.2))
    (l : List T) (m : M) :
    ∀ q ∈ (dispatchTraced invoke tagOf l event m).2.2, P q.1 q.2 := by
  refine tracedLoop_pred invoke tagOf event P hp l m [] 0 ?_
  intro q hq
  exact absurd hq (List.not_mem_nil q)

theorem dispatchTraced_eq_dispatch
    (invoke : T → E → M → T × M × Option DispatcherCommand) (tagOf : T → Nat)
    (event : E) (l : List T) (m : M) :
    (dispatchTraced invoke tagOf l event m).1 = (dispatch invoke l event m).1 ∧
      (dispatchTraced invoke tagOf l event m).2.1 = (dispatch invoke l event m).2 :=
  tracedLoop_eq_plain invoke tagOf event l m [] 0

theorem dispatchTraced_all_none
    (invoke : T → E → M → T × M × Option DispatcherCommand) (tagOf : T → Nat)
    (event : E)
    (htag : ∀ (a : T) (e : E) (m : M), tagOf ((invoke a e m).1) = tagOf a)
    (hall : ∀ (a : T) (m2 : M), (invoke a event m2).2.2 = none)
    (l : List T) (m : M) :
    (dispatchTraced invoke tagOf l event m).2.2 =
        (ids tagOf l).map (fun x => (x, (none : Option DispatcherCommand))) ∧
      ids tagOf (dispatchTraced invoke tagOf l event m).1 = ids tagOf l := by
  obtain ⟨h1, h2⟩ := tracedLoop_all_none invoke tagOf event htag hall l m [] 0
  exact ⟨h1, h2⟩

theorem dispatchTraced_no_removal
    (invoke : T → E → M → T × M × Option DispatcherCommand) (tagOf : T → Nat)
    (event : E)
    (htag : ∀ (a : T) (e : E) (m : M), tagOf ((invoke a e m).1) = tagOf a)
    (hnr : ∀ (a : T) (m2 : M), isRemovalCmd ((invoke a event m2).2.2) = false)
    (l : List T) (m : M) :
    (∃ k, logIds (dispatchTraced invoke tagOf l event m).2.2 = (ids tagOf l).take k) ∧
      ids tagOf (dispatchTraced invoke tagOf l event m).1 = ids tagOf l := by
  obtain ⟨⟨k, h1⟩, h2⟩ := tracedLoop_no_removal invoke tagOf event htag hnr l m [] 0
  exact ⟨⟨k, h1⟩, h2⟩

/-- With more fuel than `l.length - i`, the fuel-indexed loop finishes and
agrees with the dispatch loop: every dispatch call terminates within one
iteration per initially registered listener. -/
theorem dispatchLoopFuel_eq
    (invoke : T → E → M → T × M × Option DispatcherCommand) (event : E) :
    ∀ (fuel : Nat) (l : List T) (m : M) (i : Nat), l.length - i < fuel →
      dispatchLoopFuel invoke event fuel l m i = some (dispatchLoop invoke event l m i) := by
  intro fuel
  induction fuel with
  | zero =>
    intro l m i hf
    omega
  | succ fuel ih =>
    intro l m i hf
    by_cases h : i < l.length
    · rcases hinv : invoke l[i] event m with ⟨a, m2, cmd⟩
      cases cmd with
      | none =>
        have hred : dispatchLoopFuel invoke event (fuel + 1) l m i =
            dispatchLoopFuel invoke event fuel (l.set i a) m2 (i + 1) := by
          simp only [dispatchLoopFuel]
          rw [dif_pos h, hinv]
        rw [hred, dispatchLoop_none invoke event l m i h a m2 hinv]
        apply ih
        simp only [List.length_set]
        omega
      | some c =>
        cases c with
        | StopListening =>
          have hred : dispatchLoopFuel invoke event (fuel + 1) l m i =
              dispatchLoopFuel invoke event fuel (swap_remove (l.set i a) i) m2 i := by
            simp only [dispatchLoopFuel]
            rw [dif_pos h, hinv]
          rw [hred, dispatchLoop_stopListening invoke event l m i h a m2 hinv]
          apply ih
          simp only [length_swap_remove, List.length_set]
          omega
        | StopPropagation =>
          have hred : dispatchLoopFuel invoke event (fuel + 1) l m i =
              some (l.set i a, m2) := by
            simp only [dispatchLoopFuel]
            rw [dif_pos h, hinv]
          rw [hred, dispatchLoop_stopPropagation invoke event l m i h a m2 hinv]
        | StopListeningAndPropagation =>
          have hred : dispatchLoopFuel invoke event (fuel + 1) l m i =
              some (swap_remove (l.set i a) i, m2) := by
            simp only [dispatchLoopFuel]
            rw [dif_pos h, hinv]
          rw [hred, dispatchLoop_stopBoth invoke event l m i h a m2 hinv]
    · have hred : dispatchLoopFuel invoke event (fuel + 1) l m i = some (l, m) := by
        simp only [dispatchLoopFuel]
        rw [dif_neg h]
      rw [hred, dispatchLoop_exit invoke event l m i h]

theorem incr_loop (n i c : Nat) :
    dispatchLoop incrInvoke () (List.replicate n ()) c i =
      (List.replicate n (), c + (n - i)) := by
  by_cases h : i < (List.replicate n ()).length
  · have hinv : incrInvoke (List.replicate n ())[i] () c = ((), c + 1, none) := rfl
    rw [dispatchLoop_none incrInvoke () _ c i h () (c + 1) hinv]
    have hset : (List.replicate n ()).set i () = List.replicate n () :=
      set_self_eq (List.replicate n ()) i h
    rw [hset, incr_loop n (i + 1) (c + 1)]
    have harith : c + 1 + (n - (i + 1)) = c + (n - i) := by
      simp only [List.length_replicate] at h
      omega
    rw [harith]
  · rw [dispatchLoop_exit incrInvoke () _ c i h]
    simp only [List.length_replicate] at h
    have harith : n - i = 0 := by omega
    rw [harith]
    rfl
termination_by n - i
decreasing_by
  simp only [List.length_replicate] at h
  omega

/-! ### Claim theorems -/

/-- C1: for every dispatcher state and `(event, companion)` input, `dispatch`
performs a single index-based pass starting at index 0 in which a listener
returning `None` advances the index by one; `StopListening` removes the
current entry by swap-removal (swap with the last entry, shrink by one)
without advancing the index; `StopPropagation` ends the pass immediately with
no removal; `StopListeningAndPropagation` removes the current entry by
swap-removal and ends the pass immediately.  (Final conjunct: the pass ends
when the index reaches the length.) -/
theorem dispatch_single_pass_semantics
    (invoke : T → E → M → T × M × Option DispatcherCommand) (event : E) :
    (∀ (l : List T) (m : M), dispatch invoke l event m = dispatchLoop invoke event l m 0) ∧
    (∀ (l : List T) (m : M) (i : Nat) (h : i < l.length) (a : T) (m2 : M),
      invoke l[i] event m = (a, m2, none) →
        dispatchLoop invoke event l m i = dispatchLoop invoke event (l.set i a) m2 (i + 1)) ∧
    (∀ (l : List T) (m : M) (i : Nat) (h : i < l.length) (a : T) (m2 : M),
      invoke l[i] event m = (a, m2, some StopListening) →
        dispatchLoop invoke event l m i =
          dispatchLoop invoke event (swap_remove (l.set i a) i) m2 i) ∧
    (∀ (l : List T) (m : M) (i : Nat) (h : i < l.length) (a : T) (m2 : M),
      invoke l[i] event m = (a, m2, some StopPropagation) →
        dispatchLoop invoke event l m i = (l.set i a, m2)) ∧
    (∀ (l : List T) (m : M) (i : Nat) (h : i < l.length) (a : T) (m2 : M),
      invoke l[i] event m = (a, m2, some StopListeningAndPropagation) →
        dispatchLoop invoke event l m i = (swap_remove (l.set i a) i, m2)) ∧
    (∀ (l : List T) (i : Nat) (hne : l ≠ []),
      swap_remove l i = (l.set i (l.getLast hne)).dropLast) ∧
    (∀ (l : List T) (m : M) (i : Nat), ¬ i < l.length →
      dispatchLoop invoke event l m i = (l, m)) := by
  refine ⟨fun l m => rfl, ?_, ?_, ?_, ?_, ?_, ?_⟩
  · intro l m i h a m2 hinv
    exact dispatchLoop_none invoke event l m i h a m2 hinv
  · intro l m i h a m2 hinv
    exact dispatchLoop_stopListening invoke event l m i h a m2 hinv
  · intro l m i h a m2 hinv
    exact dispatchLoop_stopPropagation invoke event l m i h a m2 hinv
  · intro l m i h a m2 hinv
    exact dispatchLoop_stopBoth invoke event l m i h a m2 hinv
  · intro l i hne
    exact swap_remove_eq_of_ne_nil l i hne
  · intro l m i h
    exact dispatchLoop_exit invoke event l m i h

/-- Witness for C1: the `StopListening` step at a concrete input — the entry
is swap-removed and the index is not advanced. -/
theorem dispatch_single_pass_semantics_witness :
    dispatchLoop natSL () [5] () 0 =
      dispatchLoop natSL () (swap_remove ([5].set 0 5) 0) () 0 :=
  (dispatch_single_pass_semantics natSL ()).2.2.1 [5] () 0 (by decide) 5 () rfl

/-- C3: a weak entry whose referent was destroyed returns `StopListening`
without invoking the referent's handler (the result does not depend on
`inner` and leaves the companion untouched), and a dispatcher holding only
such an entry has a listener sequence of length 1 before one dispatch call
and is empty after it. -/
theorem weak_expired_removed :
    (∀ (σ : Type w) (inner : σ → E → M → σ × M × Option DispatcherCommand) (e : E) (m : M),
      weakOnEvent inner none e m = (none, m, some StopListening)) ∧
    (∀ (σ : Type w) (inner : σ → E → M → σ × M × Option DispatcherCommand) (e : E) (m : M),
      dispatch (weakOnEvent inner) [(none : Option σ)] e m = ([], m)) ∧
    (∀ (σ : Type w), ([(none : Option σ)] : List (Option σ)).length = 1) := by
  refine ⟨fun σ inner e m => rfl, ?_, fun σ => rfl⟩
  intro σ inner e m
  simp [dispatch, dispatchLoop, weakOnEvent, swap_remove]

/-- C6: companion mutations are visible to subsequently invoked listeners of
the same dispatch call: a `Nat` companion starting at 0, dispatched to `n`
listeners that each increment it by one and return `None`, equals `n` after
one dispatch call (and the listener sequence is unchanged). -/
theorem companion_counts_listeners (n : Nat) :
    dispatch incrInvoke (List.replicate n ()) () 0 = (List.replicate n (), n) := by
  show dispatchLoop incrInvoke () (List.replicate n ()) 0 0 = (List.replicate n (), n)
  rw [incr_loop n 0 0]
  have harith : 0 + (n - 0) = n := by omega
  rw [harith]

/-- C7: the `stop_listening_and_propagation` test scenario — two weakly-held
listeners that both return `StopListeningAndPropagation`, registered with
`add` in order; call 1 invokes only the first (uses become `(1, 0)`) and
removes it, call 2 invokes only the second, now first in the sequence (uses
become `(1, 1)`), and removes it, call 3 invokes neither. -/
theorem stop_both_two_weak_listeners :
    dispatch stopBothInvoke (add (add [] 0) 1) () (0, 0) = ([1], (1, 0)) ∧
    dispatch stopBothInvoke [1] () (1, 0) = ([], (1, 1)) ∧
    dispatch stopBothInvoke [] () (1, 1) = ([], (1, 1)) := by
  refine ⟨?_, ?_, ?_⟩ <;>
    simp [dispatch, dispatchLoop, add, stopBothInvoke, swap_remove, bump2]

/-- C2: within one dispatch call, every listener entry present at the start is
invoked at most once (distinct tags stay distinct in the invocation log); when
no invocation returns a removal command the invocation order is exactly a
prefix of registration order; and after a swap-removal the index is not
advanced (the swapped-in entry has not been invoked yet, which is what keeps
the log duplicate-free). -/
theorem dispatch_at_most_once_order
    (invoke : T → E → M → T × M × Option DispatcherCommand) (tagOf : T → Nat)
    (event : E)
    (htag : ∀ (a : T) (e : E) (m : M), tagOf ((invoke a e m).1) = tagOf a) :
    (∀ (l : List T) (m : M), (ids tagOf l).Nodup →
      (logIds (dispatchTraced invoke tagOf l event m).2.2).Nodup) ∧
    ((∀ (a : T) (m2 : M), isRemovalCmd ((invoke a event m2).2.2) = false) →
      ∀ (l : List T) (m : M),
        ∃ k, logIds (dispatchTraced invoke tagOf l event m).2.2 = (ids tagOf l).take k) ∧
    (∀ (l : List T) (m : M) (i : Nat) (h : i < l.length) (a : T) (m2 : M),
      invoke l[i] event m = (a, m2, some StopListening) →
        dispatchLoop invoke event l m i =
          dispatchLoop invoke event (swap_remove (l.set i a) i) m2 i) := by
  refine ⟨?_, ?_, ?_⟩
  · intro l m hnd
    exact dispatchTraced_nodup invoke tagOf event htag l m hnd
  · intro hnr l m
    exact (dispatchTraced_no_removal invoke tagOf event htag hnr l m).1
  · intro l m i h a m2 hinv
    exact dispatchLoop_stopListening invoke event l m i h a m2 hinv

/-- Witness for C2: two distinctly tagged listeners, each invoked at most once
in one dispatch call. -/
theorem dispatch_at_most_once_order_witness :
    (logIds (dispatchTraced natNone id [0, 1] () ()).2.2).Nodup :=
  (dispatch_at_most_once_order natNone id () (fun _ _ _ => rfl)).1 [0, 1] () (by decide)

/-- C4: a listener entry is removed only as a direct consequence of its own
returned command.  First conjunct: the final tags plus the tags logged with a
removal command are a permutation of the initial tags.  Second conjunct: each
log pair records an invoked entry's tag with the command the invocation
function actually returned for it (so an expired weak entry's removal is
recorded as its own `StopListening`).  Third conjunct: an entry none of whose
invocations returned a removal command is still registered afterwards. -/
theorem removal_only_by_own_command
    (invoke : T → E → M → T × M × Option DispatcherCommand) (tagOf : T → Nat)
    (event : E)
    (htag : ∀ (a : T) (e : E) (m : M), tagOf ((invoke a e m).1) = tagOf a) :
    (∀ (l : List T) (m : M),
      (ids tagOf (dispatchTraced invoke tagOf l event m).1 ++
          removedIds (dispatchTraced invoke tagOf l event m).2.2).Perm (ids tagOf l)) ∧
    (∀ (P : Nat → Option DispatcherCommand → Prop),
      (∀ (a : T) (m2 : M), P (tagOf a) ((invoke a event m2).2.2)) →
      ∀ (l : List T) (m : M),
        ∀ q ∈ (dispatchTraced invoke tagOf l event m).2.2, P q.1 q.2) ∧
    (∀ (l : List T) (m : M) (x : Nat), x ∈ ids tagOf l →
      (∀ q ∈ (dispatchTraced invoke tagOf l event m).2.2,
        q.1 = x → isRemovalCmd q.2 = false) →
      x ∈ ids tagOf (dispatchTraced invoke tagOf l event m).1) := by
  refine ⟨?_, ?_, ?_⟩
  · intro l m
    exact dispatchTraced_perm invoke tagOf event htag l m
  · intro P hp l m
    exact dispatchTraced_pred invoke tagOf event P hp l m
  · intro l m x hx hkeep
    have hperm := dispatchTraced_perm invoke tagOf event htag l m
    have hmem := hperm.mem_iff.mpr hx
    rcases List.mem_append.mp hmem with h1 | h2
    · exact h1
    · exfalso
      rcases List.mem_map.mp h2 with ⟨q, hqf, hqx⟩
      have hq := List.mem_filter.mp hqf
      have hfalse := hkeep q hq.1 hqx
      have htrue := hq.2
      rw [hfalse] at htrue
      exact Bool.noConfusion htrue

/-- Witness for C4: tag conservation at a concrete input. -/
theorem removal_only_by_own_command_witness :
    (ids id (dispatchTraced natNone id [0, 1] () ()).1 ++
        removedIds (dispatchTraced natNone id [0, 1] () ()).2.2).Perm (ids id [0, 1]) :=
  (removal_only_by_own_command natNone id () (fun _ _ _ => rfl)).1 [0, 1] ()

theorem foldl_add (ls : List T) : ∀ acc : List T, List.foldl add acc ls = acc ++ ls := by
  induction ls with
  | nil =>
    intro acc
    simp
  | cons x ls ih =>
    intro acc
    show List.foldl add (add acc x) ls = acc ++ x :: ls
    rw [ih (add acc x)]
    show (acc ++ [x]) ++ ls = acc ++ x :: ls
    rw [List.append_assoc]
    rfl

/-- C5: `add` appends the listener to the end of the sequence (no error, no
return value), so registering `L1..Ln` in order via `add` builds exactly the
sequence `L1..Ln`; a dispatch call in which every listener returns `None`
invokes them in exactly that order, once each, and leaves the sequence
unchanged. -/
theorem add_appends_dispatch_in_order
    (invoke : T → E → M → T × M × Option DispatcherCommand) (tagOf : T → Nat)
    (event : E)
    (htag : ∀ (a : T) (e : E) (m : M), tagOf ((invoke a e m).1) = tagOf a)
    (hall : ∀ (a : T) (m2 : M), (invoke a event m2).2.2 = none) :
    (∀ (l : List T) (x : T), add l x = l ++ [x]) ∧
    (∀ (ls : List T), List.foldl add [] ls = ls) ∧
    (∀ (ls : List T) (m : M),
      (dispatchTraced invoke tagOf (List.foldl add [] ls) event m).2.2 =
          (ids tagOf ls).map (fun x => (x, (none : Option DispatcherCommand))) ∧
        ids tagOf (dispatchTraced invoke tagOf (List.foldl add [] ls) event m).1 =
          ids tagOf ls) := by
  refine ⟨fun l x => rfl, ?_, ?_⟩
  · intro ls
    rw [foldl_add ls []]
    rfl
  · intro ls m
    rw [foldl_add ls []]
    show (dispatchTraced invoke tagOf ls event m).2.2 = _ ∧
      ids tagOf (dispatchTraced invoke tagOf ls event m).1 = ids tagOf ls
    exact dispatchTraced_all_none invoke tagOf event htag hall ls m

/-- Witness for C5: two listeners added in order, all returning `None`, are
logged in registration order, once each. -/
theorem add_appends_dispatch_in_order_witness :
    (dispatchTraced natNone id (List.foldl add [] [0, 1]) () ()).2.2 =
      (ids id [0, 1]).map (fun x => (x, (none : Option DispatcherCommand))) :=
  ((add_appends_dispatch_in_order natNone id () (fun _ _ _ => rfl)
    (fun _ _ => rfl)).2.2 [0, 1] ()).1

/-- C9: every dispatch call terminates — the fuel-indexed loop, which can only
do one iteration per unit of fuel, already finishes with `l.length - i + 1`
fuel and agrees with `dispatchLoop` (each iteration advances the index or
shrinks the list); the loop ends when the index reaches the length; and the
number of invocations in one call is bounded by the number of listeners
registered when the call starts. -/
theorem dispatch_terminates
    (invoke : T → E → M → T × M × Option DispatcherCommand) (tagOf : T → Nat)
    (event : E) :
    (∀ (fuel : Nat) (l : List T) (m : M) (i : Nat), l.length - i < fuel →
      dispatchLoopFuel invoke event fuel l m i = some (dispatchLoop invoke event l m i)) ∧
    (∀ (l : List T) (m : M) (i : Nat), ¬ i < l.length →
      dispatchLoop invoke event l m i = (l, m)) ∧
    (∀ (l : List T) (m : M),
      (dispatchTraced invoke tagOf l event m).2.2.length ≤ l.length) := by
  refine ⟨?_, ?_, ?_⟩
  · intro fuel l m i hf
    exact dispatchLoopFuel_eq invoke event fuel l m i hf
  · intro l m i h
    exact dispatchLoop_exit invoke event l m i h
  · intro l m
    exact dispatchTraced_log_length invoke tagOf event l m

/-- Witness for C9: with fuel 3 the fuel-indexed loop finishes on a
two-element dispatcher and agrees with the dispatch loop. -/
theorem dispatch_terminates_witness :
    dispatchLoopFuel natNone () 3 [0, 1] () 0 = some (dispatchLoop natNone () [0, 1] () 0) :=
  (dispatch_terminates natNone id ()).1 3 [0, 1] () 0 (by decide)

/-- C10: `dispatch` never grows the listener sequence — the final length plus
the number of removal-command invocations equals the initial length (so the
length never increases and decreases by exactly the number of invocations
yielding `StopListening` or `StopListeningAndPropagation`); the traced run
projects to the plain `dispatch`; and dispatching on an empty dispatcher
invokes no listener and leaves the dispatcher and companion unchanged. -/
theorem dispatch_never_grows
    (invoke : T → E → M → T × M × Option DispatcherCommand) (tagOf : T → Nat)
    (event : E) :
    (∀ (l : List T) (m : M),
      (dispatchTraced invoke tagOf l event m).1.length +
          (removedIds (dispatchTraced invoke tagOf l event m).2.2).length = l.length) ∧
    (∀ (l : List T) (m : M),
      (dispatchTraced invoke tagOf l event m).1.length ≤ l.length) ∧
    (∀ (l : List T) (m : M),
      (dispatchTraced invoke tagOf l event m).1 = (dispatch invoke l event m).1 ∧
        (dispatchTraced invoke tagOf l event m).2.1 = (dispatch invoke l event m).2) ∧
    (∀ (m : M), dispatch invoke [] event m = ([], m) ∧
      (dispatchTraced invoke tagOf [] event m).2.2 = []) := by
  refine ⟨?_, ?_, ?_, ?_⟩
  · intro l m
    exact dispatchTraced_lengths invoke tagOf event l m
  · intro l m
    have h := dispatchTraced_lengths invoke tagOf event l m
    omega
  · intro l m
    exact dispatchTraced_eq_dispatch invoke tagOf event l m
  · intro m
    constructor
    · show dispatchLoop invoke event [] m 0 = ([], m)
      exact dispatchLoop_exit invoke event [] m 0 (by simp)
    · show (dispatchLoop (traceInvoke invoke tagOf) event [] (m, []) 0).2.2 = []
      rw [dispatchLoop_exit _ event [] (m, []) 0 (by simp)]

/-- A tag absent from the dispatcher is never invoked in any number of
subsequent dispatch calls. -/
theorem iter_not_invoked
    (invoke : T → E → M → T × M × Option DispatcherCommand) (tagOf : T → Nat)
    (htag : ∀ (a : T) (e : E) (m : M), tagOf ((invoke a e m).1) = tagOf a)
    (x : Nat) :
    ∀ (inputs : List (E × M)) (l : List T), x ∉ ids tagOf l →
      x ∉ logIds (iterDispatch invoke tagOf inputs l).2 := by
  intro inputs
  induction inputs with
  | nil =>
    intro l hnx
    show x ∉ logIds []
    exact List.not_mem_nil x
  | cons em rest ih =>
    intro l hnx
    rcases em with ⟨e, m⟩
    rcases hdt : dispatchTraced invoke tagOf l e m with ⟨l2, m2, log⟩
    rcases hit : iterDispatch invoke tagOf rest l2 with ⟨l3, logs⟩
    have hstep : iterDispatch invoke tagOf ((e, m) :: rest) l = (l3, log ++ logs) := by
      show (match dispatchTraced invoke tagOf l e m with
        | (l2, _, log) =>
          match iterDispatch invoke tagOf rest l2 with
          | (l3, logs) => (l3, log ++ logs)) = (l3, log ++ logs)
      rw [hdt]
      show (match iterDispatch invoke tagOf rest l2 with
        | (l3, logs) => (l3, log ++ logs)) = (l3, log ++ logs)
      rw [hit]
    rw [hstep]
    show x ∉ logIds (log ++ logs)
    rw [logIds_append]
    intro hmem
    rcases List.mem_append.mp hmem with h1 | h2
    · have hsub := dispatchTraced_subset invoke tagOf e htag l m x
      rw [hdt] at hsub
      exact hnx (hsub h1)
    · have hfin := dispatchTraced_final_subset invoke tagOf e htag l m
      rw [hdt] at hfin
      have hnx2 : x ∉ ids tagOf l2 := fun hc => hnx (hfin x hc)
      have := ih l2 hnx2
      rw [hit] at this
      exact this h2

/-- C8: a listener whose invocations always return `StopListening` that gets
invoked during a dispatch call is invoked exactly once in that call, is no
longer registered afterwards, and is never invoked again in any number of
subsequent dispatch calls. -/
theorem stop_listening_invoked_once
    (invoke : T → E → M → T × M × Option DispatcherCommand) (tagOf : T → Nat)
    (htag : ∀ (a : T) (e : E) (m : M), tagOf ((invoke a e m).1) = tagOf a)
    (x : Nat)
    (hx : ∀ (a : T) (e : E) (m2 : M), tagOf a = x →
      (invoke a e m2).2.2 = some StopListening)
    (l : List T) (event : E) (m : M)
    (hnd : (ids tagOf l).Nodup)
    (hinvoked : x ∈ logIds (dispatchTraced invoke tagOf l event m).2.2)
    (inputs : List (E × M)) :
    (logIds (dispatchTraced invoke tagOf l event m).2.2).count x = 1 ∧
    x ∉ ids tagOf (dispatchTraced invoke tagOf l event m).1 ∧
    (logIds (iterDispatch invoke tagOf inputs
      (dispatchTraced invoke tagOf l event m).1).2).count x = 0 := by
  have hlognd := dispatchTraced_nodup invoke tagOf event htag l m hnd
  have hcount1 : (logIds (dispatchTraced invoke tagOf l event m).2.2).count x = 1 :=
    List.count_eq_one_of_mem hlognd hinvoked
  have hpred := dispatchTraced_pred invoke tagOf event
    (fun t c => t = x → c = some StopListening)
    (fun a m2 ht => hx a event m2 ht) l m
  have hrm : x ∈ removedIds (dispatchTraced invoke tagOf l event m).2.2 := by
    rcases List.mem_map.mp hinvoked with ⟨q, hq, hqx⟩
    have hq2 : q.2 = some StopListening := hpred q hq hqx
    refine List.mem_map.mpr ⟨q, ?_, hqx⟩
    refine List.mem_filter.mpr ⟨hq, ?_⟩
    rw [hq2]
    rfl
  have hperm := dispatchTraced_perm invoke tagOf event htag l m
  have hndapp := hperm.symm.nodup hnd
  have hdisj := (List.nodup_append.mp hndapp).2.2
  have hnotfin : x ∉ ids tagOf (dispatchTraced invoke tagOf l event m).1 :=
    fun hxf => hdisj hxf hrm
  refine ⟨hcount1, hnotfin, ?_⟩
  rw [List.count_eq_zero]
  exact iter_not_invoked invoke tagOf htag x inputs
    (dispatchTraced invoke tagOf l event m).1 hnotfin

/-- Witness for C8: a single always-stop-listening listener is invoked once,
removed, and never invoked across one further dispatch call. -/
theorem stop_listening_invoked_once_witness :
    (logIds (dispatchTraced natSL id [0] () ()).2.2).count 0 = 1 ∧
    0 ∉ ids id (dispatchTraced natSL id [0] () ()).1 ∧
    (logIds (iterDispatch natSL id [((), ())]
      (dispatchTraced natSL id [0] () ()).1).2).count 0 = 0 :=
  stop_listening_invoked_once natSL id (fun _ _ _ => rfl) 0 (fun _ _ _ _ => rfl)
    [0] () () (by decide)
    (by simp [dispatchTraced, dispatch, dispatchLoop, traceInvoke, natSL,
      swap_remove, logIds])
    [((), ())]

/-- Witness for C3: a concrete expired weak entry is removed by one dispatch
call, leaving the sequence empty. -/
theorem weak_expired_removed_witness :
    dispatch (weakOnEvent (fun (s : Nat) (_ : Nat) (m : Nat) => (s, m, none)))
      [(none : Option Nat)] 0 0 = ([], 0) :=
  weak_expired_removed.2.1 Nat (fun s _ m => (s, m, none)) 0 0

/-- Witness for C6: three incrementing listeners leave the companion at 3. -/
theorem companion_counts_listeners_witness :
    dispatch incrInvoke (List.replicate 3 ()) () 0 = (List.replicate 3 (), 3) :=
  companion_counts_listeners 3

/-- Witness for C7: the first dispatch call of the scenario. -/
theorem stop_both_two_weak_listeners_witness :
    dispatch stopBothInvoke (add (add [] 0) 1) () (0, 0) = ([1], (1, 0)) :=
  stop_both_two_weak_listeners.1

/-- Witness for C10: length conservation at a concrete input. -/
theorem dispatch_never_grows_witness :
    (dispatchTraced natNone id [0, 1] () ()).1.length +
        (removedIds (dispatchTraced natNone id [0, 1] () ()).2.2).length = [0, 1].length :=
  (dispatch_never_grows natNone id ()).1 [0, 1] ()

end EventDispatcher
